import Mathlib

/-!
Verification of a custom CSV reader/writer (`custom_csv.py`).

The reader (`CustomCsvReader`) is embedded as a state machine over an
explicit remaining-input list of characters; the writer (`CustomCsvWriter`)
as pure functions from rows to text.  A field is a list of characters and a
row a list of fields.  End-of-source is the exhaustion of the input list,
matching `file_obj.read(1) == ""`.
-/

namespace CustomCsv

/-- A field: the characters of one CSV cell. -/
abbrev Field := List Char

/-- A row: an ordered list of fields. -/
abbrev Row := List Field

/-- State of a `CustomCsvReader`: the configured delimiter and quote
character, the sticky `_eof` flag, and the remaining characters of the
source. -/
structure ReaderState where
  delim : Char
  quote : Char
  eof : Bool
  input : List Char
deriving DecidableEq

/-- `CustomCsvReader.__init__(file_obj, delimiter, quotechar)`: stores the
configuration and the source and clears the end-of-stream flag.  The Python
constructor performs no validation whatsoever, so the embedding is a total
function. -/
def initReader (d q : Char) (input : List Char) : ReaderState :=
  ⟨d, q, false, input⟩

/-- State of a `CustomCsvWriter`: just the configuration (the sink is
modelled by returning the emitted text). -/
structure WriterState where
  delim : Char
  quote : Char
deriving DecidableEq

/-- `CustomCsvWriter.__init__`: stores the configuration, again with no
validation. -/
def initWriter (d q : Char) : WriterState :=
  ⟨d, q⟩

/-- The `while True` loop of `CustomCsvReader._read_next_row`, one branch
for one Python branch, in the source's order of tests.  Arguments after the
configuration: remaining input, `in_quotes`, `field_chars`, `row`.  Result:
the returned row (`none` for the `return None` path), whether `self._eof`
was set during this call, and the input left unconsumed. -/
def readRowAux (d q : Char) : List Char → Bool → List Char → Row → Option Row × Bool × List Char
  | [], inQuotes, fieldChars, row =>
      if inQuotes then (some (row ++ [fieldChars]), true, [])
      else if fieldChars ≠ [] ∨ row ≠ [] then (some (row ++ [fieldChars]), true, [])
      else (none, true, [])
  | ch :: rest, inQuotes, fieldChars, row =>
      if ch = q then
        if inQuotes then
          match rest with
          | [] => (some (row ++ [fieldChars]), true, [])
          | nextCh :: rest2 =>
            if nextCh = q then
              readRowAux d q rest2 true (fieldChars ++ [q]) row
            else if nextCh = d then
              readRowAux d q rest2 false [] (row ++ [fieldChars])
            else if nextCh = '\n' ∨ nextCh = '\r' then
              (some (row ++ [fieldChars]), false, rest2)
            else
              readRowAux d q rest2 false (fieldChars ++ [nextCh]) row
        else
          if fieldChars = [] then
            readRowAux d q rest true fieldChars row
          else
            readRowAux d q rest false (fieldChars ++ [ch]) row
      else if ch = d ∧ inQuotes = false then
        readRowAux d q rest false [] (row ++ [fieldChars])
      else if (ch = '\n' ∨ ch = '\r') ∧ inQuotes = false then
        (some (row ++ [fieldChars]), false, rest)
      else
        readRowAux d q rest inQuotes (fieldChars ++ [ch]) row

/-- `CustomCsvReader._read_next_row`: short-circuits when `_eof` is already
set, otherwise runs the parsing loop from a fresh per-row state and records
the updated flag and remaining input. -/
def readNextRow (st : ReaderState) : Option Row × ReaderState :=
  if st.eof then (none, st)
  else
    match readRowAux st.delim st.quote st.input false [] [] with
    | (row?, eofSet, rem) => (row?, ⟨st.delim, st.quote, eofSet, rem⟩)

/-- Iterating the reader (`list(reader)`): collect rows until a call yields
no row, with fuel bounding the number of `_read_next_row` calls. -/
def readAllAux : Nat → ReaderState → List Row
  | 0, _ => []
  | n + 1, st =>
    match readNextRow st with
    | (none, _) => []
    | (some row, st') => row :: readAllAux n st'

/-- All rows the reader produces from a source; `input.length + 1` calls
always suffice (each row-yielding call consumes at least one character). -/
def readAll (d q : Char) (s : List Char) : List Row :=
  readAllAux (s.length + 1) (initReader d q s)

/-- String-level view of `readAll` at the default configuration
(`delimiter=","`, `quotechar='"'`). -/
def readAllString (s : String) : List (List String) :=
  (readAll ',' '"' s.toList).map (fun r => r.map (fun f => String.mk f))

/-- `field.replace(quotechar, quotechar * 2)` for a single-character quote:
every occurrence of the quote character becomes two. -/
def quoteEscape (q : Char) (field : List Char) : List Char :=
  field.flatMap (fun c => if c = q then [q, q] else [c])

/-- The `needs_quotes` test of `CustomCsvWriter._escape_field`. -/
def needsQuotes (d q : Char) (field : List Char) : Bool :=
  field.contains d || field.contains q || field.contains '\n' || field.contains '\r'

/-- `CustomCsvWriter._escape_field`. -/
def escapeField (d q : Char) (field : List Char) : List Char :=
  if needsQuotes d q field then q :: quoteEscape q field ++ [q] else field

/-- `delimiter.join(fields)`: fields joined by one delimiter character. -/
def joinFields (d : Char) : List (List Char) → List Char
  | [] => []
  | [f] => f
  | f :: fs => f ++ d :: joinFields d fs

/-- `CustomCsvWriter.writerow` on string-valued fields (for which Python's
`str(value)` is the identity): escape each field, join with the delimiter,
terminate with a single newline. -/
def writeRow (d q : Char) (row : Row) : List Char :=
  joinFields d (row.map (escapeField d q)) ++ ['\n']

/-- `CustomCsvWriter.writerows`: each row in order. -/
def writeRows (d q : Char) (rows : List Row) : List Char :=
  (rows.map (writeRow d q)).flatten

/-- String-level view of `writeRows` at the default configuration. -/
def writeRowsString (rows : List (List String)) : String :=
  String.mk (writeRows ',' '"' (rows.map (fun r => r.map String.toList)))

example : readAllString "a,b\nc\n" = [["a", "b"], ["c"]] := by decide

example : readAllString "a,\"he said \"\"hi\"\"\",c" = [["a", "he said \"hi\"", "c"]] := by decide

example : writeRowsString [["a", "b,c"]] = "a,\"b,c\"\n" := by decide

example : readAllString "ab\"c,d" = [["ab\"c", "d"]] := by decide

example : readAllString "a\r\nb\n" = [["a"], [""], ["b"]] := by decide

example : readAllString "\"" = [[""]] := by decide

example : readAll ',' '"' (writeRows ',' '"' [[]]) = [[[]]] := by decide

/-- The escaping policy as the spec words it: quote exactly when the field
contains the delimiter, the quote character, or either newline variant;
when quoting, wrap the field in quote characters with every interior quote
character doubled; otherwise emit the field verbatim. -/
def specEscapeField (d q : Char) (field : List Char) : List Char :=
  if d ∈ field ∨ q ∈ field ∨ '\n' ∈ field ∨ '\r' ∈ field then
    q :: field.flatMap (fun c => if c = q then [q, q] else [c]) ++ [q]
  else field

/-- The row serialization as the spec words it: escaped fields joined by a
single delimiter character, the row terminated by a single newline. -/
def specWriteRow (d q : Char) (row : Row) : List Char :=
  List.intercalate [d] (row.map (specEscapeField d q)) ++ ['\n']

theorem readRowAux_consumed (d q : Char) (input : List Char) (inQ : Bool)
    (fc : List Char) (r : Row) :
    ((readRowAux d q input inQ fc r).2.2).length ≤ input.length ∧
    (input ≠ [] → ((readRowAux d q input inQ fc r).2.2).length < input.length) := by
  induction input, inQ, fc, r using readRowAux.induct d q with
  | _ =>
    first
    | (rw [readRowAux.eq_def] <;> simp_all <;> omega)
    | (rw [readRowAux.eq_def] <;> simp_all <;> split_ifs <;> simp_all <;> omega)

theorem readRowAux_none (d q : Char) (input : List Char) (inQ : Bool)
    (fc : List Char) (r : Row) :
    (readRowAux d q input inQ fc r).1 = none →
    readRowAux d q input inQ fc r = (none, true, []) := by
  induction input, inQ, fc, r using readRowAux.induct d q with
  | case13 ch rest inQ2 fc2 r2 h1 h2 h3 ih =>
    intro h9
    rw [readRowAux.eq_def] at h9 ⊢
    dsimp only at h9 ⊢
    rw [if_neg h1, if_neg h2, if_neg h3] at h9 ⊢
    exact ih h9
  | _ =>
    intro h9
    first
    | (rw [readRowAux.eq_def] at h9 ⊢ <;> simp_all)
    | (rw [readRowAux.eq_def] at h9 ⊢ <;> split_ifs at h9 ⊢ <;> simp_all)

theorem readNextRow_some_lt (st st' : ReaderState) (row : Row)
    (h : readNextRow st = (some row, st')) :
    st'.input.length < st.input.length := by
  unfold readNextRow at h
  by_cases he : st.eof
  · simp [he] at h
  · simp only [he, Bool.false_eq_true, if_false] at h
    rcases hi : st.input with _ | ⟨ch, rest⟩
    · rw [hi] at h
      simp [readRowAux] at h
    · rw [hi] at h
      rcases haux : readRowAux st.delim st.quote (ch :: rest) false [] [] with ⟨o, e, rem⟩
      rw [haux] at h
      have hlt := (readRowAux_consumed st.delim st.quote (ch :: rest) false [] []).2 (by simp)
      rw [haux] at hlt
      cases h
      simpa using hlt

/-- C10: end-of-stream is sticky.  Once a `_read_next_row` call yields no
row, the `_eof` flag is set, and every later call on the resulting state
yields no row and leaves the state — in particular the remaining input —
untouched, so no further characters are read from the source. -/
theorem eos_sticky (st st' : ReaderState) (h : readNextRow st = (none, st')) :
    st'.eof = true ∧ readNextRow st' = (none, st') := by
  unfold readNextRow at h
  by_cases he : st.eof
  · simp only [he, if_true] at h
    cases h
    exact ⟨he, by simp [readNextRow, he]⟩
  · simp only [he, Bool.false_eq_true, if_false] at h
    rcases haux : readRowAux st.delim st.quote st.input false [] [] with ⟨o, e, rem⟩
    rw [haux] at h
    have ho : o = none := by
      by_contra hc
      rcases o with _ | row
      · exact hc rfl
      · simp at h
    have := readRowAux_none st.delim st.quote st.input false [] []
    rw [haux, ho] at this
    have h3 : (⟨true, ([] : List Char)⟩ : Bool × List Char) = (e, rem) := by
      have := this rfl
      cases this
      rfl
    cases h3
    cases h
    exact ⟨rfl, by simp [readNextRow]⟩

/-- Closed witness for `eos_sticky`: the empty source signals end-of-stream
on the first call, and the resulting state is terminal. -/
theorem eos_sticky_witness :
    (⟨',', '"', true, []⟩ : ReaderState).eof = true ∧
    readNextRow ⟨',', '"', true, []⟩ = (none, ⟨',', '"', true, []⟩) :=
  eos_sticky (initReader ',' '"' []) ⟨',', '"', true, []⟩ (by decide)

theorem readAllAux_fuel (k : Nat) :
    ∀ (n : Nat) (st : ReaderState), st.input.length < n →
    readAllAux (n + k) st = readAllAux n st := by
  intro n
  induction n with
  | zero => intro st h; omega
  | succ m ih =>
    intro st h
    have hnk : m + 1 + k = (m + k) + 1 := by omega
    rw [hnk]
    rcases hr : readNextRow st with ⟨o, st'⟩
    rcases o with _ | row
    · simp [readAllAux, hr]
    · have hlt := readNextRow_some_lt st st' row hr
      simp only [readAllAux, hr]
      rw [ih st' (by omega)]

theorem step_quoted_other (d q ch : Char) (rest fc : List Char) (r : Row) (h : ch ≠ q) :
    readRowAux d q (ch :: rest) true fc r = readRowAux d q rest true (fc ++ [ch]) r := by
  rw [readRowAux.eq_def]
  simp [h]

theorem step_quoted_qq (d q : Char) (rest fc : List Char) (r : Row) :
    readRowAux d q (q :: q :: rest) true fc r = readRowAux d q rest true (fc ++ [q]) r := by
  rw [readRowAux.eq_def]
  simp

theorem step_quoted_qd (d q : Char) (rest fc : List Char) (r : Row) (h : d ≠ q) :
    readRowAux d q (q :: d :: rest) true fc r =
    readRowAux d q rest false [] (r ++ [fc]) := by
  rw [readRowAux.eq_def]
  simp [h]

theorem step_quoted_qn (d q : Char) (rest fc : List Char) (r : Row)
    (hq : q ≠ '\n') (hd : d ≠ '\n') :
    readRowAux d q (q :: '\n' :: rest) true fc r = (some (r ++ [fc]), false, rest) := by
  rw [readRowAux.eq_def]
  simp [Ne.symm hq, Ne.symm hd]

theorem step_open_quote (d q : Char) (rest : List Char) (r : Row) :
    readRowAux d q (q :: rest) false [] r = readRowAux d q rest true [] r := by
  rw [readRowAux.eq_def]
  simp

theorem step_literal_quote (d q : Char) (rest fc : List Char) (r : Row) (h : fc ≠ []) :
    readRowAux d q (q :: rest) false fc r = readRowAux d q rest false (fc ++ [q]) r := by
  rw [readRowAux.eq_def]
  simp [h]

theorem step_delim (d q : Char) (rest fc : List Char) (r : Row) (h : d ≠ q) :
    readRowAux d q (d :: rest) false fc r = readRowAux d q rest false [] (r ++ [fc]) := by
  rw [readRowAux.eq_def]
  simp [h]

theorem step_newline (d q : Char) (rest fc : List Char) (r : Row)
    (hq : q ≠ '\n') (hd : d ≠ '\n') :
    readRowAux d q ('\n' :: rest) false fc r = (some (r ++ [fc]), false, rest) := by
  rw [readRowAux.eq_def]
  simp [Ne.symm hq, Ne.symm hd]

theorem step_cr (d q : Char) (rest fc : List Char) (r : Row)
    (hq : q ≠ '\r') (hd : d ≠ '\r') :
    readRowAux d q ('\r' :: rest) false fc r = (some (r ++ [fc]), false, rest) := by
  rw [readRowAux.eq_def]
  simp [Ne.symm hq, Ne.symm hd]

theorem step_plain (d q ch : Char) (rest fc : List Char) (r : Row)
    (h1 : ch ≠ q) (h2 : ch ≠ d) (h3 : ch ≠ '\n') (h4 : ch ≠ '\r') :
    readRowAux d q (ch :: rest) false fc r = readRowAux d q rest false (fc ++ [ch]) r := by
  rw [readRowAux.eq_def]
  simp [h1, h2, h3, h4]

theorem scan_plain (d q : Char) (f : List Char)
    (hf : ∀ c ∈ f, c ≠ q ∧ c ≠ d ∧ c ≠ '\n' ∧ c ≠ '\r') :
    ∀ (rest fc : List Char) (r : Row),
    readRowAux d q (f ++ rest) false fc r = readRowAux d q rest false (fc ++ f) r := by
  induction f with
  | nil => simp
  | cons c f ih =>
    intro rest fc r
    obtain ⟨h1, h2, h3, h4⟩ := hf c (by simp)
    rw [List.cons_append, step_plain d q c (f ++ rest) fc r h1 h2 h3 h4,
      ih (fun c hc => hf c (by simp [hc])) rest (fc ++ [c]) r]
    simp

theorem scan_quoted (d q : Char) (f : List Char) :
    ∀ (rest fc : List Char) (r : Row),
    readRowAux d q (quoteEscape q f ++ q :: rest) true fc r =
    readRowAux d q (q :: rest) true (fc ++ f) r := by
  induction f with
  | nil => simp [quoteEscape]
  | cons c f ih =>
    intro rest fc r
    by_cases hc : c = q
    · subst hc
      have : quoteEscape c (c :: f) ++ c :: rest =
          c :: c :: (quoteEscape c f ++ c :: rest) := by
        simp [quoteEscape]
      rw [this, step_quoted_qq, ih rest (fc ++ [c]) r]
      simp
    · have : quoteEscape q (c :: f) ++ q :: rest =
          c :: (quoteEscape q f ++ q :: rest) := by
        simp [quoteEscape, hc]
      rw [this, step_quoted_other d q c _ fc r hc, ih rest (fc ++ [c]) r]
      simp

theorem needsQuotes_false_mem (d q : Char) (f : List Char)
    (h : needsQuotes d q f = false) :
    ∀ c ∈ f, c ≠ q ∧ c ≠ d ∧ c ≠ '\n' ∧ c ≠ '\r' := by
  intro c hc
  simp only [needsQuotes, Bool.or_eq_false_iff] at h
  obtain ⟨⟨⟨h1, h2⟩, h3⟩, h4⟩ := h
  refine ⟨?_, ?_, ?_, ?_⟩ <;> rintro rfl
  · simp [List.elem_iff, List.contains, hc] at h2
  · simp [List.elem_iff, List.contains, hc] at h1
  · simp [List.elem_iff, List.contains, hc] at h3
  · simp [List.elem_iff, List.contains, hc] at h4

theorem read_field_delim (d q : Char) (f : List Char) (rest : List Char) (r : Row)
    (hdq : d ≠ q) (hdn : d ≠ '\n') (hqn : q ≠ '\n') :
    readRowAux d q (escapeField d q f ++ d :: rest) false [] r =
    readRowAux d q rest false [] (r ++ [f]) := by
  by_cases hq : needsQuotes d q f
  · have : escapeField d q f ++ d :: rest =
        q :: (quoteEscape q f ++ q :: d :: rest) := by
      simp [escapeField, hq]
    rw [this, step_open_quote, scan_quoted d q f (d :: rest) [] r, List.nil_append,
      step_quoted_qd d q rest f r hdq]
  · rw [escapeField, if_neg hq,
      scan_plain d q f (needsQuotes_false_mem d q f (by simpa using hq)) (d :: rest) [] r,
      List.nil_append, step_delim d q rest f r hdq]

theorem read_field_newline (d q : Char) (f : List Char) (rest : List Char) (r : Row)
    (hdq : d ≠ q) (hdn : d ≠ '\n') (hqn : q ≠ '\n') :
    readRowAux d q (escapeField d q f ++ '\n' :: rest) false [] r =
    (some (r ++ [f]), false, rest) := by
  by_cases hq : needsQuotes d q f
  · have : escapeField d q f ++ '\n' :: rest =
        q :: (quoteEscape q f ++ q :: '\n' :: rest) := by
      simp [escapeField, hq]
    rw [this, step_open_quote, scan_quoted d q f ('\n' :: rest) [] r, List.nil_append,
      step_quoted_qn d q rest f r hqn hdn]
  · rw [escapeField, if_neg hq,
      scan_plain d q f (needsQuotes_false_mem d q f (by simpa using hq)) ('\n' :: rest) [] r,
      List.nil_append, step_newline d q rest f r hqn hdn]

theorem read_row_cont (d q : Char) (hdq : d ≠ q) (hdn : d ≠ '\n') (hqn : q ≠ '\n') :
    ∀ (fs : List Field) (f : Field) (rest : List Char) (r : Row),
    readRowAux d q (joinFields d ((f :: fs).map (escapeField d q)) ++ '\n' :: rest) false [] r =
    (some (r ++ (f :: fs)), false, rest) := by
  intro fs
  induction fs with
  | nil =>
    intro f rest r
    rw [List.map_cons, List.map_nil, joinFields, read_field_newline d q f rest r hdq hdn hqn]
  | cons g gs ih =>
    intro f rest r
    have hj : joinFields d ((f :: g :: gs).map (escapeField d q)) =
        escapeField d q f ++ d :: joinFields d ((g :: gs).map (escapeField d q)) := by
      simp [joinFields]
    rw [hj, List.append_assoc, List.cons_append,
      read_field_delim d q f _ r hdq hdn hqn, ih g rest (r ++ [f])]
    simp

theorem readNextRow_writeRow (d q : Char) (hdq : d ≠ q) (hdn : d ≠ '\n') (hqn : q ≠ '\n')
    (f : Field) (fs : List Field) (rest : List Char) :
    readNextRow ⟨d, q, false, writeRow d q (f :: fs) ++ rest⟩ =
    (some (f :: fs), ⟨d, q, false, rest⟩) := by
  have hw : writeRow d q (f :: fs) ++ rest =
      joinFields d ((f :: fs).map (escapeField d q)) ++ '\n' :: rest := by
    rw [writeRow, List.append_assoc]
    rfl
  rw [readNextRow]
  simp only [Bool.false_eq_true, if_false]
  rw [hw, read_row_cont d q hdq hdn hqn fs f rest []]
  simp

theorem writeRow_length_pos (d q : Char) (r : Row) : 1 ≤ (writeRow d q r).length := by
  rw [writeRow]
  simp

theorem readAllAux_writeRows (d q : Char) (hdq : d ≠ q) (hdn : d ≠ '\n') (hqn : q ≠ '\n') :
    ∀ (rows : List Row), (∀ r ∈ rows, r ≠ []) →
    ∀ n : Nat, (writeRows d q rows).length < n →
    readAllAux n ⟨d, q, false, writeRows d q rows⟩ = rows := by
  intro rows
  induction rows with
  | nil =>
    intro _ n hn
    rcases n with _ | m
    · omega
    · simp [readAllAux, readNextRow, writeRows, readRowAux]
  | cons r rows ih =>
    intro hne n hn
    rcases n with _ | m
    · omega
    · have hrne : r ≠ [] := hne r (by simp)
      rcases r with _ | ⟨f, fs⟩
      · exact absurd rfl hrne
      · have hw : writeRows d q ((f :: fs) :: rows) =
            writeRow d q (f :: fs) ++ writeRows d q rows := by
          rw [writeRows, List.map_cons, List.flatten_cons]
          rfl
        have hlen : (writeRows d q rows).length < m := by
          have h1 := writeRow_length_pos d q (f :: fs)
          rw [hw] at hn
          simp only [List.length_append] at hn
          omega
        rw [hw]
        simp only [readAllAux, readNextRow_writeRow d q hdq hdn hqn f fs (writeRows d q rows)]
        rw [ih (fun x hx => hne x (by simp [hx])) m hlen]

/-- C1 (corrected): the round-trip law.  For every configuration with
delimiter distinct from the quote character and neither equal to `'\n'`,
and every row sequence in which each row has at least one field, writing
the rows with `writerows` and reading the text back yields exactly the
original rows, field-for-field and row-for-row — including fields that
contain delimiters, quote characters, and embedded newlines (no NUL
restriction is even needed).  The claim as frozen fails only for rows with
zero fields (see the counterexample); the empty row `[]` is written as a
bare `"\n"`, which reads back as `[""]`. -/
theorem round_trip (d q : Char) (hdq : d ≠ q) (hdn : d ≠ '\n') (hqn : q ≠ '\n')
    (rows : List Row) (hne : ∀ r ∈ rows, r ≠ []) :
    readAll d q (writeRows d q rows) = rows := by
  rw [readAll, initReader]
  exact readAllAux_writeRows d q hdq hdn hqn rows hne ((writeRows d q rows).length + 1)
    (by omega)

/-- Closed witness for `round_trip` at the default configuration, on rows
exercising an embedded delimiter, quote character, and newline. -/
theorem round_trip_witness :
    readAll ',' '"' (writeRows ',' '"'
      [[['a'], ['b', ',', 'c']], [['x', '"', 'y']], [['l', '\n', 'm'], []]]) =
    [[['a'], ['b', ',', 'c']], [['x', '"', 'y']], [['l', '\n', 'm'], []]] :=
  round_trip ',' '"' (by decide) (by decide) (by decide) _ (by decide)

/-- C1 counterexample: the claim as frozen quantifies over every row
sequence, but a row with zero fields does not survive the round trip: the
writer emits a bare newline for it, and the reader parses that line as one
empty field. -/
theorem round_trip_counterexample :
    readAll ',' '"' (writeRows ',' '"' [[]]) ≠ [[]] := by decide

/-- C3: totality of parsing.  For every finite character sequence there is a
definite row sequence the reader parses it into: the embedding of
`_read_next_row` is a total function (there is no error outcome in the
code — every branch of the loop either consumes a character or returns),
and iterating it stabilizes after at most `|s| + 1` calls, whatever the
source `s` and the configuration. -/
theorem parse_totality (d q : Char) (s : List Char) :
    ∃ rows : List Row, ∀ k : Nat,
      readAllAux (s.length + 1 + k) (initReader d q s) = rows := by
  refine ⟨readAll d q s, fun k => ?_⟩
  exact readAllAux_fuel k (s.length + 1) (initReader d q s) (by simp [initReader])

theorem needsQuotes_iff_mem (d q : Char) (f : List Char) :
    needsQuotes d q f = true ↔ (d ∈ f ∨ q ∈ f ∨ '\n' ∈ f ∨ '\r' ∈ f) := by
  simp [needsQuotes, List.contains, List.elem_iff, or_assoc]

theorem escapeField_eq_spec (d q : Char) (f : List Char) :
    escapeField d q f = specEscapeField d q f := by
  rw [escapeField, specEscapeField]
  by_cases h : d ∈ f ∨ q ∈ f ∨ '\n' ∈ f ∨ '\r' ∈ f
  · rw [if_pos h, if_pos ((needsQuotes_iff_mem d q f).mpr h)]
    rfl
  · rw [if_neg h, if_neg (fun hc => h ((needsQuotes_iff_mem d q f).mp hc))]

theorem joinFields_eq_intercalate (d : Char) (fs : List (List Char)) :
    joinFields d fs = List.intercalate [d] fs := by
  induction fs with
  | nil => simp [joinFields, List.intercalate]
  | cons f fs ih =>
    rcases fs with _ | ⟨g, gs⟩
    · simp [joinFields, List.intercalate]
    · simp only [joinFields, List.intercalate, List.intersperse_cons_cons,
        List.flatten_cons] at ih ⊢
      rw [ih]
      simp

/-- C2: the writer escaping policy, matched against the spec-side
description `specWriteRow`/`specEscapeField`: a field is quoted exactly
when it contains the delimiter, the quote character, `'\n'`, or `'\r'`; a
quoted field is wrapped in quote characters with every interior quote
character doubled; an unquoted field is emitted verbatim; fields are joined
by a single delimiter character and the row ends with a single `'\n'`. -/
theorem writer_escaping_policy (d q : Char) (row : Row) (f : List Char) :
    writeRow d q row = specWriteRow d q row ∧
    escapeField d q f = specEscapeField d q f ∧
    (needsQuotes d q f = true ↔ (d ∈ f ∨ q ∈ f ∨ '\n' ∈ f ∨ '\r' ∈ f)) := by
  refine ⟨?_, escapeField_eq_spec d q f, needsQuotes_iff_mem d q f⟩
  rw [writeRow, specWriteRow, joinFields_eq_intercalate]
  have hm : row.map (escapeField d q) = row.map (specEscapeField d q) := by
    induction row with
    | nil => rfl
    | cons x xs ih => simp [ih, escapeField_eq_spec]
  rw [hm]

/-- C4: a quote character read outside quotes opens a quoted section only
when the field buffer is empty; with a non-empty buffer it is appended as a
literal character.  Concretely, `ab"c,d` parses with first field `ab"c`,
no error and no extra field split. -/
theorem quote_only_at_field_start (d q : Char) (rest fc : List Char) (acc : Row)
    (h : fc ≠ []) :
    readRowAux d q (q :: rest) false fc acc = readRowAux d q rest false (fc ++ [q]) acc ∧
    readRowAux d q (q :: rest) false [] acc = readRowAux d q rest true [] acc ∧
    readAllString "ab\"c,d" = [["ab\"c", "d"]] :=
  ⟨step_literal_quote d q rest fc acc h, step_open_quote d q rest acc, by decide⟩

/-- Closed witness for `quote_only_at_field_start`. -/
theorem quote_only_at_field_start_witness :
    readRowAux ',' '"' ('"' :: ['x']) false ['a'] [] =
      readRowAux ',' '"' ['x'] false (['a'] ++ ['"']) [] ∧
    readRowAux ',' '"' ('"' :: ['x']) false [] [] = readRowAux ',' '"' ['x'] true [] [] ∧
    readAllString "ab\"c,d" = [["ab\"c", "d"]] :=
  quote_only_at_field_start ',' '"' ['x'] ['a'] [] (by decide)

/-- C5 counterexample: the claim says a CRLF-terminated source yields the
same rows as its LF-terminated variant; the code disagrees, because the
`'\n'` that follows a `'\r'` starts and immediately terminates a fresh
row.  `"a\r\nb\n"` parses as three rows while `"a\nb\n"` parses as two. -/
theorem crlf_counterexample :
    readAllString "a\r\nb\n" ≠ readAllString "a\nb\n" := by decide

/-- C5 (amended): the reader accepts `'\n'` and `'\r'` each as a complete
row terminator with no lookahead, so a `'\r\n'` pair acts as two
terminators: the `'\r'` ends the row leaving the `'\n'` in the input, and
that `'\n'` produces an additional row holding a single empty field. -/
theorem crlf_two_terminators (d q : Char) (rest fc : List Char) (acc : Row)
    (hdr : d ≠ '\r') (hqr : q ≠ '\r') (hdn : d ≠ '\n') (hqn : q ≠ '\n') :
    readRowAux d q ('\r' :: rest) false fc acc = (some (acc ++ [fc]), false, rest) ∧
    readRowAux d q ('\n' :: rest) false fc acc = (some (acc ++ [fc]), false, rest) ∧
    readAllString "a\r\nb\n" = [["a"], [""], ["b"]] :=
  ⟨step_cr d q rest fc acc hqr hdr, step_newline d q rest fc acc hqn hdn, by decide⟩

/-- Closed witness for `crlf_two_terminators`. -/
theorem crlf_two_terminators_witness :
    readRowAux ',' '"' ('\r' :: ['x']) false ['a'] [] =
      (some (([] : Row) ++ [['a']]), false, ['x']) ∧
    readRowAux ',' '"' ('\n' :: ['x']) false ['a'] [] =
      (some (([] : Row) ++ [['a']]), false, ['x']) ∧
    readAllString "a\r\nb\n" = [["a"], [""], ["b"]] :=
  crlf_two_terminators ',' '"' ['x'] ['a'] [] (by decide) (by decide) (by decide) (by decide)

/-- C6: end-of-source row closure.  A source exhausted in either the
unquoted or the quoted state with a non-empty field buffer or a non-empty
row-so-far still yields that last row (first conjunct, for every value of
`in_quotes`); a source exhausted exactly at a row boundary (fresh per-row
state: unquoted, empty buffer, empty row) yields no spurious trailing row.
Concretely, `"a,b"` (no final terminator) and `"a,b\n"` both parse as the
single row `["a", "b"]`, and the unclosed-quote source `"ab` still yields
its partial row `["ab"]`. -/
theorem eof_row_closure (d q : Char) (inQ : Bool) (fc : List Char) (acc : Row)
    (h : fc ≠ [] ∨ acc ≠ []) :
    readRowAux d q [] inQ fc acc = (some (acc ++ [fc]), true, []) ∧
    readRowAux d q [] false [] [] = (none, true, []) ∧
    readAllString "a,b" = [["a", "b"]] ∧
    readAllString "a,b\n" = [["a", "b"]] ∧
    readAllString "\"ab" = [["ab"]] := by
  refine ⟨?_, by rw [readRowAux.eq_def]; simp, by decide, by decide, by decide⟩
  rw [readRowAux.eq_def]
  rcases inQ with _ | _
  · simp only [Bool.false_eq_true, if_false, if_pos h]
  · simp

/-- Closed witness for `eof_row_closure`, exercising the quoted state. -/
theorem eof_row_closure_witness :
    readRowAux ',' '"' [] true ['a'] [] = (some (([] : Row) ++ [['a']]), true, []) ∧
    readRowAux ',' '"' [] false [] [] = (none, true, []) ∧
    readAllString "a,b" = [["a", "b"]] ∧
    readAllString "a,b\n" = [["a", "b"]] ∧
    readAllString "\"ab" = [["ab"]] :=
  eof_row_closure ',' '"' true ['a'] [] (by decide)

/-- C7: inside a quoted field two consecutive quote characters decode to
one literal quote character; concretely, `a,"he said ""hi""",c` parses as
the single row `["a", "he said \"hi\"", "c"]`. -/
theorem doubled_quote_decode (d q : Char) (rest fc : List Char) (acc : Row) :
    readRowAux d q (q :: q :: rest) true fc acc = readRowAux d q rest true (fc ++ [q]) acc ∧
    readAllString "a,\"he said \"\"hi\"\"\",c" = [["a", "he said \"hi\"", "c"]] :=
  ⟨step_quoted_qq d q rest fc acc, by decide⟩

/-- C8 counterexample: the claim says an invalid configuration (delimiter
equal to the quote character) fails at construction time; the constructors
perform no validation at all — they return ordinary states storing the bad
configuration — and the codec then proceeds to produce silently corrupted
output: writing the row `["a", "b"]` with delimiter = quote = `','` reads
back as the single merged field `"a,b"`. -/
theorem config_failfast_counterexample :
    initReader ',' ',' ['a'] = ⟨',', ',', false, ['a']⟩ ∧
    initWriter ',' ',' = ⟨',', ','⟩ ∧
    readAll ',' ',' (writeRows ',' ',' [[['a'], ['b']]]) = [[['a', ',', 'b']]] :=
  ⟨rfl, rfl, by decide⟩

/-- C8 (amended): construction performs no validation for any
configuration, including delimiter equal to the quote character; the codec
proceeds with the stored configuration, and such a configuration can
produce silently corrupted, non-round-tripping output. -/
theorem config_construction_total (d q : Char) (input : List Char) :
    initReader d q input = ⟨d, q, false, input⟩ ∧
    initWriter d q = ⟨d, q⟩ ∧
    readAll ',' ',' (writeRows ',' ',' [[['a'], ['b']]]) ≠ [[['a'], ['b']]] :=
  ⟨rfl, rfl, by decide⟩

/-- C9 counterexample: the claim says end-of-stream is signaled with no row
whenever the source is exhausted with empty buffer and empty row,
including a source that is a lone opening quote; the code instead returns
the row `[""]` for the source `"` because the end-of-source branch closes
the row unconditionally while inside quotes. -/
theorem eos_empty_counterexample :
    readAllString "\"" = [[""]] ∧ readAllString "\"" ≠ [] :=
  ⟨by decide, by decide⟩

/-- C9 (amended): end-of-stream is signaled directly, with no row
returned, exactly when the source is exhausted with empty buffer, empty
row, and the reader not inside quotes.  When the source ends inside quotes
the accumulated field is closed and returned even if buffer and row are
both empty, so a source consisting solely of an opening quote yields one
row with a single empty field. -/
theorem eos_empty_amended (d q : Char) (fc : List Char) (acc : Row) :
    readRowAux d q [] false [] [] = (none, true, []) ∧
    readRowAux d q [] true fc acc = (some (acc ++ [fc]), true, []) ∧
    readAllString "\"" = [[""]] := by
  refine ⟨by rw [readRowAux.eq_def]; simp, by rw [readRowAux.eq_def]; simp, by decide⟩

end CustomCsv
